import Mathlib

/-!
Verification of the structural-chunking engine of the embedded-C AST
parser.  The Python implementation snippets (from the repository's
implementation explanation, which is the authoritative in-tree form of
`cast_parser.py` / `c_ast_parser.py`) are shallowly embedded as Lean
functions; machine behaviour (list mutation, `or` defaulting, stable
sorting, slicing) is reproduced explicitly.
-/

namespace AST

/-- Python `sep.join(lst)`: empty string for `[]`, otherwise the elements
interleaved with `sep`. -/
def joinSep (sep : String) : List String → String
  | [] => ""
  | [a] => a
  | a :: b :: rest => a ++ sep ++ joinSep sep (b :: rest)

/-- Embedding of the `ASTNode`/`CASTNode` dataclass fields used by the
chunking pipeline.  `childCount` records `len(children)`; the splitter and
merger consult only whether `children` is empty, never its contents. -/
structure CNode where
  type : String
  code : String
  start_line : Nat
  end_line : Nat
  name : Option String := none
  parent : Option String := none
  doxygen : Option String := none
  comments : List String := []
  childCount : Nat := 0
  deriving DecidableEq, Repr, Inhabited

/-! ## Comment associator: `_find_nearest_comment`

The source iterates over the regex-extracted comment blocks, converts each
block's end byte offset to a line number, and keeps the block with the
smallest gap `start_line - end_ln` in `[0, max_gap]`:

    best, gap = None, max_gap + 1
    for b0, b1, raw in blocks:
        end_ln = _byte_to_line(b1, offs)
        if 0 <= (start_line - end_ln) < gap:
            best, gap = raw, start_line - end_ln

We embed the blocks directly as `(end line, raw text)` pairs (the
byte-offset-to-line conversion `_byte_to_line` / `_line_offsets` is pure
index arithmetic not shown in the source).  Python's
`0 <= (start_line - end_ln)` over ints is rendered as `end_ln ≤ start_line`
over `Nat`. -/

def fncAux (start : Nat) : List (Nat × String) → Nat × Option String → Nat × Option String
  | [], st => st
  | (e, raw) :: rest, (gap, best) =>
      if e ≤ start ∧ start - e < gap then fncAux start rest (start - e, some raw)
      else fncAux start rest (gap, best)

def findNearestComment (blocks : List (Nat × String)) (start maxGap : Nat) : Option String :=
  (fncAux start blocks (maxGap + 1, none)).2

/-- Each candidate node independently receives
`_find_nearest_comment(source, node.start_line, ...)`; there is no shared
"claimed" state between the calls (cf. `parse_source`, which calls
`_find_nearest_comment` once per extracted node). -/
def assignDocs (blocks : List (Nat × String)) (starts : List Nat) (maxGap : Nat) :
    List (Option String) :=
  starts.map fun s => findNearestComment blocks s maxGap

/-! Helper lemmas for `fncAux`. -/

/-- Soundness invariant carried through `fncAux`: whenever the accumulator
holds `some r`, the pair `(gap, some r)` records an actual block of the full
list with that exact gap, within `maxGap`; `none` keeps `gap = maxGap + 1`. -/
def FncInv (blocks : List (Nat × String)) (start maxGap : Nat) (st : Nat × Option String) : Prop :=
  st.1 ≤ maxGap + 1 ∧
  (st.2 = none → st.1 = maxGap + 1) ∧
  (∀ r, st.2 = some r →
    ∃ e, (e, r) ∈ blocks ∧ e ≤ start ∧ start - e = st.1 ∧ start - e ≤ maxGap)

/-! ## Merger: `_group_related_nodes`

    parent_groups = defaultdict(list)
    for node in nodes:
        parent_key = node.parent or "root"
        parent_groups[parent_key].append(node)
    result_groups = []
    for parent_key, group in parent_groups.items():
        group.sort(key=lambda n: n.start_line)
        current_group, current_size = [], 0
        for node in group:
            node_size = self._get_node_size(node)
            if current_group and current_size + node_size > self.max_chunk_size:
                result_groups.append(current_group)
                current_group, current_size = [], 0
            current_group.append(node)
            current_size += node_size
        if current_group:
            result_groups.append(current_group)
    return result_groups

Python dicts iterate in key-insertion order, and Python's sort is stable.
-/

/-- Python `node.parent or "root"`: an absent or empty (falsy)
`conditional_context` collapses to the sentinel key `"root"`. -/
def parentKey (n : CNode) : String :=
  match n.parent with
  | some s => if s = "" then "root" else s
  | none => "root"

/-- Keys of `parent_groups` in first-occurrence (dict insertion) order. -/
def groupKeys (nodes : List CNode) : List String :=
  nodes.foldl (fun ks n => if parentKey n ∈ ks then ks else ks ++ [parentKey n]) []

/-- The nodes collected under one key, in original order. -/
def groupFor (nodes : List CNode) (k : String) : List CNode :=
  nodes.filter (fun n => parentKey n == k)

/-- Stable insertion for `group.sort(key=lambda n: n.start_line)`:
an element is placed before the first strictly-later entry and after
earlier-or-equal ones, matching Python's stable sort under `foldr`. -/
def insertByStart (n : CNode) : List CNode → List CNode
  | [] => [n]
  | m :: ms => if n.start_line ≤ m.start_line then n :: m :: ms else m :: insertByStart n ms

def sortByStart (l : List CNode) : List CNode := l.foldr insertByStart []

/-- Modelled from the spec: `_get_node_size` is not shown in the source;
per §4.5 the Emitter "concatenates node source texts in original document
order with no reformatting", so a node's size is the length of its source
text. -/
def nodeSize (n : CNode) : Nat := n.code.length

def sumSize : List CNode → Nat
  | [] => 0
  | n :: rest => nodeSize n + sumSize rest

/-- The accumulation loop of `_group_related_nodes` over one sibling group:
emit the running buffer exactly when adding the next sibling would push it
over `max_chunk_size`, then flush the final non-empty buffer. -/
def groupLoop (maxSize : Nat) : List CNode → List CNode → Nat → List (List CNode)
  | [], cur, _ => if cur = [] then [] else [cur]
  | n :: rest, cur, size =>
      let ns := nodeSize n
      if cur ≠ [] ∧ size + ns > maxSize then
        cur :: groupLoop maxSize rest [n] ns
      else
        groupLoop maxSize rest (cur ++ [n]) (size + ns)

def groupRelatedNodes (maxSize : Nat) (nodes : List CNode) : List (List CNode) :=
  List.flatten ((groupKeys nodes).map fun k =>
    groupLoop maxSize (sortByStart (groupFor nodes k)) [] 0)

/-- Concatenation of a chunk's node texts (spec §4.5: "concatenates node
source texts in original document order with no reformatting"). -/
def concatAll : List String → String
  | [] => ""
  | a :: rest => a ++ concatAll rest

def renderGroup (g : List CNode) : String := concatAll (g.map (·.code))

/-- Chunk metadata `"conditional_context": [n.parent for n in nodes if n.parent]`. -/
def chunkCondContexts (g : List CNode) : List String :=
  g.filterMap fun n =>
    match n.parent with
    | some s => if s = "" then none else some s
    | none => none

/-- Concrete nodes for the C1 witness: two small same-context siblings. -/
def w1 : CNode := { type := "typedef", code := "abc", start_line := 1, end_line := 1 }

def w2 : CNode := { type := "typedef", code := "defg", start_line := 2, end_line := 2 }

/-- Concrete nodes refuting C4 as universally stated: one node whose
`conditional_context` is the literal string `"root"` and one with no
conditional context at all. -/
def nRoot : CNode :=
  { type := "define", code := "a", start_line := 1, end_line := 1, parent := some "root" }

def nNone : CNode :=
  { type := "define", code := "b", start_line := 2, end_line := 2, parent := none }

/-- Scenario D nodes: 50 bytes each, under distinct conditional directives. -/
def fiftyChars (c : Char) : String := String.mk (List.replicate 50 c)

def nodeA : CNode :=
  { type := "function_definition", code := fiftyChars 'a', start_line := 1,
    end_line := 2, name := some "fa", parent := some "FEATURE_A" }

def nodeB : CNode :=
  { type := "function_definition", code := fiftyChars 'b', start_line := 10,
    end_line := 11, name := some "fb", parent := some "FEATURE_B" }

/-! ## Splitter: `_split_large_node`

    if node.children:
        return [node]
    lines = node.code.splitlines()
    chunks, current_chunk, current_size = [], [], 0
    for line in lines:
        line_size = len(line) + 1
        if current_chunk and current_size + line_size > self.max_chunk_size:
            chunk_code = "\n".join(current_chunk)
            chunk_node = CASTNode(
                type=f"{node.type}_part", code=chunk_code,
                start_line=node.start_line,
                end_line=node.start_line + len(current_chunk),
                name=node.name, parent=node.parent,
                doxygen=node.doxygen if not chunks else None,
                comments=node.comments if not chunks else [])
            chunks.append(chunk_node)
            current_chunk, current_size = [line], line_size
        else:
            current_chunk.append(line)
            current_size += line_size
    # Add the last chunk  (elided in the source; modelled below symmetric
    # to the loop body, flushing a non-empty final buffer)
    return chunks
-/

/-- Character-level worker for `str.splitlines()`: cut at each newline; a
final newline produces no trailing empty piece. -/
def slAux : List Char → List Char → List String
  | [], acc => if acc = [] then [] else [String.mk acc]
  | c :: cs, acc =>
      if c = '\n' then String.mk acc :: slAux cs []
      else slAux cs (acc ++ [c])

/-- Python `str.splitlines()` on newline-separated text (so
"".splitlines() == [], "a\n".splitlines() == ["a"], and
"a\n\nb".splitlines() == ["a", "", "b"]). -/
def splitLines (s : String) : List String := slAux s.data []

/-- Python `line_size = len(line) + 1  # +1 for newline`. -/
def lineSize (line : String) : Nat := line.length + 1

def sumLineSize : List String → Nat
  | [] => 0
  | l :: rest => lineSize l + sumLineSize rest

/-- The `CASTNode(...)` built for one accumulated part; `isFirst` is the
Python `not chunks` test at construction time. -/
def mkPart (node : CNode) (chunkLines : List String) (isFirst : Bool) : CNode :=
  { type := node.type ++ "_part"
    code := joinSep "\n" chunkLines
    start_line := node.start_line
    end_line := node.start_line + chunkLines.length
    name := node.name
    parent := node.parent
    doxygen := if isFirst then node.doxygen else none
    comments := if isFirst then node.comments else []
    childCount := 0 }

def splitLoop (maxSize : Nat) (node : CNode) :
    List String → List CNode → List String → Nat → List CNode
  | [], chunks, cur, _ =>
      if cur = [] then chunks else chunks ++ [mkPart node cur chunks.isEmpty]
  | line :: rest, chunks, cur, size =>
      if cur ≠ [] ∧ size + lineSize line > maxSize then
        splitLoop maxSize node rest (chunks ++ [mkPart node cur chunks.isEmpty])
          [line] (lineSize line)
      else
        splitLoop maxSize node rest chunks (cur ++ [line]) (size + lineSize line)

def splitLargeNode (maxSize : Nat) (node : CNode) : List CNode :=
  if node.childCount ≠ 0 then [node]
  else splitLoop maxSize node (splitLines node.code) [] [] 0

/-- Oversized childless node for refuting the "part index" conjunct of C5:
its 9-byte two-line body must be split under `max_chunk_size = 5`. -/
def bigNode : CNode :=
  { type := "function_definition", code := "aaaa\nbbbb", start_line := 3,
    end_line := 4, name := some "f", doxygen := some "/** d */",
    comments := ["/* c */"] }

/-- The same node with children, for the never-split-directly conjunct. -/
def withKids : CNode := { bigNode with childCount := 2 }

/-! ## Buffered chunker with overlap: `CChunker.chunkify`

    chunks, buffer, node_buffer = [], "", []
    for node in nodes:
        node_content = self._format_node_content(node)
        if buffer and (len(buffer) + len(node_content) > self.max_chunk_size):
            chunks.append(self._emit_chunk(node_buffer, buffer, filepath))
            if self.overlap_units and node_buffer:
                keep = node_buffer[-self.overlap_units:]
                buffer = "\n\n".join(self._format_node_content(n) for n in keep)
                node_buffer = keep
            else:
                buffer, node_buffer = "", []
        node_buffer.append(node)
        buffer = (buffer + "\n\n" + node_content) if buffer else node_content
    if node_buffer:
        chunks.append(self._emit_chunk(node_buffer, buffer, filepath))
-/

/-- Modelled from the spec: `_format_node_content` is not shown in the
source; per §4.5 the Emitter "concatenates node source texts in original
document order with no reformatting", so a node renders as its source
text. -/
def formatNodeContent (n : CNode) : String := n.code

/-- An emitted chunk: the `_emit_chunk(node_buffer, buffer, ...)` pair of
contributing nodes and rendered text. -/
structure Chunk where
  nodes : List CNode
  text : String
  deriving DecidableEq, Repr

/-- One iteration of the buffered loop.  `node_buffer[-overlap_units:]` is
`drop (length - overlap_units)`. -/
def chunkStep (maxSize overlapUnits : Nat)
    (st : List Chunk × String × List CNode) (node : CNode) :
    List Chunk × String × List CNode :=
  let chunks := st.1
  let buffer := st.2.1
  let nodeBuf := st.2.2
  let content := formatNodeContent node
  if buffer ≠ "" ∧ buffer.length + content.length > maxSize then
    let chunks' := chunks ++ [⟨nodeBuf, buffer⟩]
    let seeded :=
      if overlapUnits ≠ 0 ∧ nodeBuf ≠ [] then
        let keep := nodeBuf.drop (nodeBuf.length - overlapUnits)
        (joinSep "\n\n" (keep.map formatNodeContent), keep)
      else ("", ([] : List CNode))
    (chunks',
     (if seeded.1 ≠ "" then seeded.1 ++ "\n\n" ++ content else content),
     seeded.2 ++ [node])
  else
    (chunks,
     (if buffer ≠ "" then buffer ++ "\n\n" ++ content else content),
     nodeBuf ++ [node])

def chunkify (maxSize overlapUnits : Nat) (oneSymbol : Bool)
    (nodes : List CNode) : List Chunk :=
  if oneSymbol then
    nodes.map fun n => ⟨[n], formatNodeContent n⟩
  else
    let fin := nodes.foldl (chunkStep maxSize overlapUnits) ([], "", [])
    if fin.2.2 ≠ [] then fin.1 ++ [⟨fin.2.2, fin.2.1⟩] else fin.1

/-- Scenario E nodes: four 100-byte functions. -/
def hundredChars (c : Char) : String := String.mk (List.replicate 100 c)

def n1 : CNode :=
  { type := "function_definition", code := hundredChars 'p', start_line := 1,
    end_line := 3, name := some "n1" }

def n2 : CNode :=
  { type := "function_definition", code := hundredChars 'q', start_line := 10,
    end_line := 12, name := some "n2" }

def n3 : CNode :=
  { type := "function_definition", code := hundredChars 'r', start_line := 20,
    end_line := 22, name := some "n3" }

def n4 : CNode :=
  { type := "function_definition", code := hundredChars 's', start_line := 30,
    end_line := 32, name := some "n4" }

/-! ## Context paths: `CASTNode.get_full_context`

    context = []
    if self.parent_node:
        context.append(self.parent_node.get_full_context())
    if self.name:
        context.append(f"{self.type}:{self.name}")
    else:
        context.append(self.type)
    return "/".join(filter(None, context))

The optional `parent_node` back-reference is encoded by the two
constructors of `PNode`. -/

inductive PNode where
  | root (type : String) (name : Option String)
  | child (type : String) (name : Option String) (parentNode : PNode)
  deriving DecidableEq, Repr

/-- The `kind[:name]` segment appended for one node; Python's truthiness
test on `self.name` treats an empty name like an absent one. -/
def pTag (t : String) (n : Option String) : String :=
  match n with
  | some nm => if nm = "" then t else t ++ ":" ++ nm
  | none => t

def getFullContext : PNode → String
  | .root t n => joinSep "/" ([pTag t n].filter (fun s => s != ""))
  | .child t n p =>
      joinSep "/" (([getFullContext p] ++ [pTag t n]).filter (fun s => s != ""))

/-- Scenario B tree: `struct Inner` nested in `struct Outer`. -/
def demoTree : PNode :=
  PNode.child "struct" (some "Inner") (PNode.root "struct" (some "Outer"))

/-! ## Hierarchy builder: `_build_hierarchy`

    nodes.sort(key=lambda n: (n.start_line, NODE_HIERARCHY.get(n.type, 99)))
    root_nodes = []
    for node in nodes:
        parent_found = False
        for parent in nodes:
            if parent == node:
                continue
            if (parent.start_line < node.start_line and
                parent.end_line >= node.end_line and
                NODE_HIERARCHY.get(parent.type, 99) < NODE_HIERARCHY.get(node.type, 99)):
                if not parent_found or (
                    parent.start_line > node.parent_node.start_line and
                    parent.end_line <= node.parent_node.end_line
                ):
                    parent.add_child(node)
                    parent_found = True
        if not parent_found:
            root_nodes.append(node)
    return root_nodes

with `CASTNode.add_child`:

    self.children.append(child)
    child.parent_node = self
    child.depth = self.depth + 1

Nodes are identified by their position in the sorted list; the mutated
`children` / `parent_node` / `depth` attributes become the relational
state `HState`.  The rank table `NODE_HIERARCHY` is not in the source
(only `NODE_HIERARCHY.get(n.type, 99)` lookups appear), so each node
carries its looked-up rank value `hier` directly — lower value means more
container-like, matching the sort and the containment test. -/

structure BNode where
  hier : Nat
  start_line : Nat
  end_line : Nat
  deriving DecidableEq, Repr, Inhabited

/-- Sort key order `(start_line, NODE_HIERARCHY.get(n.type, 99))`. -/
def bhKeyLe (a b : BNode) : Prop :=
  a.start_line < b.start_line ∨ (a.start_line = b.start_line ∧ a.hier ≤ b.hier)

instance (a b : BNode) : Decidable (bhKeyLe a b) := by
  unfold bhKeyLe
  infer_instance

/-- Stable insertion realizing Python's stable `sort` under `foldr`. -/
def bhInsert (n : BNode) : List BNode → List BNode
  | [] => [n]
  | m :: ms => if bhKeyLe n m then n :: m :: ms else m :: bhInsert n ms

def bhSort (l : List BNode) : List BNode := l.foldr bhInsert []

/-- Relational view of the mutated node attributes: children lists,
parent back-references, depths (all indexed by position in the sorted
list) and the collected `root_nodes`. -/
structure HState where
  children : Nat → List Nat
  parentOf : Nat → Option Nat
  depthOf : Nat → Nat
  roots : List Nat

def initState : HState := ⟨fun _ => [], fun _ => none, fun _ => 0, []⟩

/-- `parent.add_child(node)`: append to the children list, set the child's
parent back-reference, set `child.depth = parent.depth + 1`. -/
def addChild (st : HState) (p c : Nat) : HState :=
  { children := fun a => if a = p then st.children p ++ [c] else st.children a
    parentOf := fun b => if b = c then some p else st.parentOf b
    depthOf := fun b => if b = c then st.depthOf p + 1 else st.depthOf b
    roots := st.roots }

def nodeAt (ns : List BNode) (i : Nat) : BNode := ns.getD i default

/-- The containment test of the inner loop: strictly earlier start,
end no earlier, strictly lower (more container-like) rank. -/
def spanGuard (p q : BNode) : Bool :=
  decide (p.start_line < q.start_line ∧ q.end_line ≤ p.end_line ∧ p.hier < q.hier)

/-- The "closer parent" test against the current `node.parent_node`. -/
def refines (ns : List BNode) (st : HState) (j i : Nat) : Bool :=
  match st.parentOf j with
  | some cp =>
      decide ((nodeAt ns cp).start_line < (nodeAt ns i).start_line ∧
        (nodeAt ns i).end_line ≤ (nodeAt ns cp).end_line)
  | none => false

def innerLoop (ns : List BNode) (j : Nat) :
    List Nat → HState → Bool → HState × Bool
  | [], st, found => (st, found)
  | i :: is, st, found =>
      if i = j then innerLoop ns j is st found
      else if spanGuard (nodeAt ns i) (nodeAt ns j) then
        if !found || refines ns st j i then
          innerLoop ns j is (addChild st i j) true
        else innerLoop ns j is st found
      else innerLoop ns j is st found

def outerLoop (ns : List BNode) : List Nat → HState → HState
  | [], st => st
  | j :: js, st =>
      let r := innerLoop ns j (List.range ns.length) st false
      outerLoop ns js (if r.2 then r.1 else { r.1 with roots := r.1.roots ++ [j] })

def buildHierarchy (nodes : List BNode) : List BNode × HState :=
  let ns := bhSort nodes
  (ns, outerLoop ns (List.range ns.length) initState)

/-- Four candidates, already in sorted order: a container spanning lines
1-10 (rank 1), a container 2-9 (rank 2) nested inside it, and two leaves
3-6 and 5-8 (rank 5) with overlapping spans. -/
def ex2 : List BNode :=
  [⟨1, 1, 10⟩, ⟨2, 2, 9⟩, ⟨5, 3, 6⟩, ⟨5, 5, 8⟩]

/-- Two candidates of equal rank 5, the second's span (2-3) strictly
inside the first's (1-10). -/
def ex3 : List BNode :=
  [⟨5, 1, 10⟩, ⟨5, 2, 3⟩]

/-! ## Helper lemmas, claim theorems, counterexamples and witnesses -/

theorem fncAux_fst_le (start : Nat) (l : List (Nat × String)) (st : Nat × Option String) :
    (fncAux start l st).1 ≤ st.1 := by
  induction l generalizing st with
  | nil => exact Nat.le_refl _
  | cons p rest ih =>
      obtain ⟨e, raw⟩ := p
      obtain ⟨gap, best⟩ := st
      simp only [fncAux]
      split
      · rename_i hcond
        exact Nat.le_trans (ih _) (Nat.le_of_lt hcond.2)
      · exact ih _

theorem fncAux_fst_min (start : Nat) (l : List (Nat × String)) (st : Nat × Option String) :
    ∀ p ∈ l, p.1 ≤ start → (fncAux start l st).1 ≤ start - p.1 := by
  induction l generalizing st with
  | nil => intro p hp; exact absurd hp (List.not_mem_nil p)
  | cons q rest ih =>
      intro p hp hple
      obtain ⟨e, raw⟩ := q
      obtain ⟨gap, best⟩ := st
      rcases List.mem_cons.mp hp with h | h
      · subst h
        simp only [fncAux]
        split
        · exact fncAux_fst_le start rest _
        · rename_i hneg
          have hge : gap ≤ start - e := by
            by_contra hlt
            exact hneg ⟨hple, Nat.lt_of_not_le hlt⟩
          exact Nat.le_trans (fncAux_fst_le start rest _) hge
      · simp only [fncAux]
        split
        · exact ih _ p h hple
        · exact ih _ p h hple

theorem fncAux_inv (blocks : List (Nat × String)) (start maxGap : Nat)
    (l : List (Nat × String)) (st : Nat × Option String)
    (hsub : ∀ p ∈ l, p ∈ blocks) (hst : FncInv blocks start maxGap st) :
    FncInv blocks start maxGap (fncAux start l st) := by
  induction l generalizing st with
  | nil => exact hst
  | cons q rest ih =>
      obtain ⟨e, raw⟩ := q
      obtain ⟨gap, best⟩ := st
      simp only [fncAux]
      split
      · rename_i hcond
        refine ih _ (fun p hp => hsub p (List.mem_cons_of_mem _ hp)) ?_
        obtain ⟨hle, hlt⟩ := hcond
        have hgap_le : start - e ≤ maxGap := by
          have h1 : start - e < gap := hlt
          have h2 : gap ≤ maxGap + 1 := hst.1
          omega
        refine ⟨Nat.le_trans hgap_le (Nat.le_succ _), ?_, ?_⟩
        · intro h; simp at h
        · intro r hr
          have : raw = r := by simpa using hr
          subst this
          exact ⟨e, hsub (e, raw) (List.mem_cons_self _ _), hle, rfl, hgap_le⟩
      · exact ih _ (fun p hp => hsub p (List.mem_cons_of_mem _ hp)) hst

theorem findNearestComment_none (blocks : List (Nat × String)) (start maxGap : Nat)
    (h : findNearestComment blocks start maxGap = none) :
    ∀ p ∈ blocks, ¬(p.1 ≤ start ∧ start - p.1 ≤ maxGap) := by
  intro p hp ⟨hple, hgap⟩
  have hinv : FncInv blocks start maxGap (fncAux start blocks (maxGap + 1, none)) :=
    fncAux_inv blocks start maxGap blocks (maxGap + 1, none) (fun _ hq => hq)
      ⟨Nat.le_refl _, fun _ => rfl, by intro r hr; simp at hr⟩
  have hfst : (fncAux start blocks (maxGap + 1, none)).1 = maxGap + 1 :=
    hinv.2.1 h
  have hmin : (fncAux start blocks (maxGap + 1, none)).1 ≤ start - p.1 :=
    fncAux_fst_min start blocks _ p hp hple
  omega

theorem findNearestComment_some (blocks : List (Nat × String)) (start maxGap : Nat)
    (r : String) (h : findNearestComment blocks start maxGap = some r) :
    ∃ e, (e, r) ∈ blocks ∧ e ≤ start ∧ start - e ≤ maxGap ∧
      ∀ q ∈ blocks, q.1 ≤ start → start - e ≤ start - q.1 := by
  have hinv : FncInv blocks start maxGap (fncAux start blocks (maxGap + 1, none)) :=
    fncAux_inv blocks start maxGap blocks (maxGap + 1, none) (fun _ hq => hq)
      ⟨Nat.le_refl _, fun _ => rfl, by intro r' hr'; simp at hr'⟩
  obtain ⟨e, hmem, hle, hgap_eq, hgap⟩ := hinv.2.2 r h
  refine ⟨e, hmem, hle, hgap, ?_⟩
  intro q hq hqle
  have := fncAux_fst_min start blocks (maxGap + 1, none) q hq hqle
  omega

/-- C7: for every candidate node, the comment associator attaches exactly a
comment block whose end line precedes the node's start line by a gap in
`[0, max_gap]`, minimal among all comment blocks; when no comment qualifies
(including zero comments) the association is `none` and no failure occurs. -/
theorem c7_nearest_comment (blocks : List (Nat × String)) (start maxGap : Nat) :
    (findNearestComment blocks start maxGap = none →
       ∀ p ∈ blocks, ¬(p.1 ≤ start ∧ start - p.1 ≤ maxGap)) ∧
    (∀ r, findNearestComment blocks start maxGap = some r →
       ∃ e, (e, r) ∈ blocks ∧ e ≤ start ∧ start - e ≤ maxGap ∧
         ∀ q ∈ blocks, q.1 ≤ start → start - e ≤ start - q.1) ∧
    findNearestComment [] start maxGap = none := by
  refine ⟨findNearestComment_none blocks start maxGap,
          fun r h => findNearestComment_some blocks start maxGap r h, rfl⟩

/-- Witness for C7 at a concrete input: blocks ending at lines 3 and 5, a
node starting at line 6 with `max_gap = 5`; the block ending at line 5
(gap 1) is selected and is gap-minimal. -/
theorem c7_nearest_comment_witness :
    ∃ e, (e, "b") ∈ [(3, "a"), (5, "b")] ∧ e ≤ 6 ∧ 6 - e ≤ 5 ∧
      ∀ q ∈ [(3, "a"), (5, "b")], q.1 ≤ 6 → 6 - e ≤ 6 - q.1 :=
  (c7_nearest_comment [(3, "a"), (5, "b")] 6 5).2.1 "b" (by decide)

/-- C8 counterexample: a comment block ending at line 5, two nodes starting
at lines 6 and 7 (`max_gap = 5`).  Each node independently calls
`_find_nearest_comment`, which keeps no record of previously consumed
blocks, so the SAME block becomes the doc comment of BOTH nodes — refuting
"a comment block consumed as one node's doc_comment is never also attached
as a different node's doc_comment". -/
theorem c8_doc_reuse_counterexample :
    assignDocs [(5, "doc")] [6, 7] 5 = [some "doc", some "doc"] ∧ (6 : Nat) ≠ 7 := by
  constructor
  · rfl
  · decide

/-- C8 amended: doc-comment association is computed independently per node
with no consumption state, so a block may serve as the doc comment of
several nodes; two nodes equidistant from the same block (equal start
lines) both receive the identical association. -/
theorem c8_doc_association_independent (blocks : List (Nat × String))
    (starts : List Nat) (maxGap i : Nat) (s : Nat) :
    (assignDocs blocks starts maxGap).get? i =
      (starts.get? i).map (fun st => findNearestComment blocks st maxGap) ∧
    assignDocs blocks [s, s] maxGap =
      [findNearestComment blocks s maxGap, findNearestComment blocks s maxGap] := by
  constructor
  · simp [assignDocs]
  · simp [assignDocs]

theorem sumSize_append (a b : List CNode) : sumSize (a ++ b) = sumSize a + sumSize b := by
  induction a with
  | nil => simp [sumSize]
  | cons n rest ih =>
      simp only [sumSize, List.cons_append, List.append_eq] at *
      omega

theorem renderGroup_length (g : List CNode) : (renderGroup g).length = sumSize g := by
  induction g with
  | nil => rfl
  | cons n rest ih =>
      simp only [renderGroup, concatAll, List.map_cons, sumSize] at *
      rw [String.length_append, ih]
      rfl

theorem groupLoop_flatten (maxSize : Nat) (l : List CNode) :
    ∀ cur size, (groupLoop maxSize l cur size).flatten = cur ++ l := by
  induction l with
  | nil =>
      intro cur size
      by_cases h : cur = [] <;> simp [groupLoop, h]
  | cons n rest ih =>
      intro cur size
      simp only [groupLoop]
      split
      · simp [List.flatten, ih]
      · simpa using ih (cur ++ [n]) (size + nodeSize n)

theorem groupLoop_size (maxSize : Nat) (l : List CNode) :
    ∀ cur size, size = sumSize cur →
      (sumSize cur ≤ maxSize ∨ ∃ n ∈ cur, nodeSize n > maxSize) →
      ∀ g ∈ groupLoop maxSize l cur size, (∀ n ∈ g, nodeSize n ≤ maxSize) →
        sumSize g ≤ maxSize := by
  induction l with
  | nil =>
      intro cur size hsz hinv g hg hall
      by_cases h : cur = []
      · simp [groupLoop, h] at hg
      · simp only [groupLoop, if_neg h] at hg
        have : g = cur := by simpa using hg
        subst this
        rcases hinv with h1 | ⟨n, hn, hbig⟩
        · exact h1
        · exact absurd (hall n hn) (by omega)
  | cons n rest ih =>
      intro cur size hsz hinv g hg hall
      simp only [groupLoop] at hg
      split at hg
      · rename_i hcond
        rcases List.mem_cons.mp hg with h | h
        · subst h
          rcases hinv with h1 | ⟨m, hm, hbig⟩
          · exact h1
          · exact absurd (hall m hm) (by omega)
        · refine ih [n] (nodeSize n) (by simp [sumSize]) ?_ g h hall
          rcases le_or_lt (nodeSize n) maxSize with hle | hlt
          · left; simp [sumSize]; omega
          · right; exact ⟨n, by simp, hlt⟩
      · rename_i hcond
        refine ih (cur ++ [n]) (size + nodeSize n)
          (by rw [sumSize_append]; simp [sumSize]; omega) ?_ g hg hall
        rcases Decidable.not_and_iff_or_not.mp hcond with hnil | hle
        · have : cur = [] := Decidable.not_not.mp hnil
          subst this
          rcases le_or_lt (nodeSize n) maxSize with h1 | h1
          · left; simp [sumSize_append, sumSize]; omega
          · right; exact ⟨n, by simp, h1⟩
        · left
          rw [sumSize_append]
          simp only [sumSize]
          omega

theorem groupLoop_single (maxSize : Nat) (l : List CNode) :
    ∀ cur size, cur ≠ [] → size = sumSize cur → size + sumSize l ≤ maxSize →
      groupLoop maxSize l cur size = [cur ++ l] := by
  induction l with
  | nil =>
      intro cur size hc _ _
      simp [groupLoop, hc]
  | cons n rest ih =>
      intro cur size hc hsz hall
      have hns : size + nodeSize n ≤ maxSize := by
        simp only [sumSize] at hall
        omega
      simp only [groupLoop]
      rw [if_neg (fun h => absurd h.2 (by omega))]
      rw [ih (cur ++ [n]) (size + nodeSize n) (by simp)
        (by rw [sumSize_append]; simp [sumSize]; omega)
        (by simp only [sumSize] at hall ⊢; omega)]
      simp

theorem groupLoop_all (maxSize : Nat) (l : List CNode) (hne : l ≠ [])
    (hle : sumSize l ≤ maxSize) : groupLoop maxSize l [] 0 = [l] := by
  match l with
  | [] => exact absurd rfl hne
  | m :: rest =>
      simp only [groupLoop]
      rw [if_neg (fun h => h.1 rfl)]
      simp only [List.nil_append]
      rw [groupLoop_single maxSize rest [m] (0 + nodeSize m) (by simp)
        (by simp [sumSize])
        (by simp only [sumSize] at hle; omega)]
      simp

theorem mem_insertByStart {x n : CNode} {l : List CNode} :
    x ∈ insertByStart n l ↔ x = n ∨ x ∈ l := by
  induction l with
  | nil => simp [insertByStart]
  | cons m ms ih =>
      simp only [insertByStart]
      split
      · simp
      · simp only [List.mem_cons, ih]
        tauto

theorem mem_sortByStart {x : CNode} {l : List CNode} :
    x ∈ sortByStart l ↔ x ∈ l := by
  induction l with
  | nil => simp [sortByStart]
  | cons n rest ih =>
      show x ∈ insertByStart n (sortByStart rest) ↔ _
      rw [mem_insertByStart, ih]
      simp

theorem sumSize_insertByStart (n : CNode) (l : List CNode) :
    sumSize (insertByStart n l) = nodeSize n + sumSize l := by
  induction l with
  | nil => simp [insertByStart, sumSize]
  | cons m ms ih =>
      simp only [insertByStart]
      split
      · simp [sumSize]
      · simp only [sumSize, ih]
        omega

theorem sumSize_sortByStart (l : List CNode) : sumSize (sortByStart l) = sumSize l := by
  induction l with
  | nil => rfl
  | cons n rest ih =>
      show sumSize (insertByStart n (sortByStart rest)) = _
      rw [sumSize_insertByStart, ih]
      rfl

theorem length_insertByStart (n : CNode) (l : List CNode) :
    (insertByStart n l).length = l.length + 1 := by
  induction l with
  | nil => rfl
  | cons m ms ih =>
      simp only [insertByStart]
      split
      · simp
      · simp [ih]

theorem sortByStart_ne_nil {l : List CNode} (h : l ≠ []) : sortByStart l ≠ [] := by
  match l with
  | [] => exact absurd rfl h
  | n :: rest =>
      show insertByStart n (sortByStart rest) ≠ []
      intro hcontra
      have := length_insertByStart n (sortByStart rest)
      rw [hcontra] at this
      simp at this

theorem groupKeys_foldl_const (k : String) (nodes : List CNode)
    (h : ∀ n ∈ nodes, parentKey n = k) :
    ∀ ks, k ∈ ks →
      List.foldl (fun ks n => if parentKey n ∈ ks then ks else ks ++ [parentKey n]) ks nodes
        = ks := by
  induction nodes with
  | nil => intro ks _; rfl
  | cons n rest ih =>
      intro ks hk
      simp only [List.foldl_cons]
      rw [if_pos (by rw [h n (List.mem_cons_self _ _)]; exact hk)]
      exact ih (fun m hm => h m (List.mem_cons_of_mem _ hm)) ks hk

theorem groupKeys_const (k : String) (nodes : List CNode) (hne : nodes ≠ [])
    (h : ∀ n ∈ nodes, parentKey n = k) : groupKeys nodes = [k] := by
  match nodes with
  | [] => exact absurd rfl hne
  | n :: rest =>
      show List.foldl _ [] (n :: rest) = [k]
      simp only [List.foldl_cons]
      rw [if_neg (List.not_mem_nil _), List.nil_append,
        h n (List.mem_cons_self _ _)]
      exact groupKeys_foldl_const k rest
        (fun m hm => h m (List.mem_cons_of_mem _ hm)) [k] (List.mem_cons_self _ _)

theorem groupFor_self (k : String) (nodes : List CNode)
    (h : ∀ n ∈ nodes, parentKey n = k) : groupFor nodes k = nodes := by
  apply List.filter_eq_self.mpr
  intro n hn
  simp [h n hn]

/-- C1: a chunk whose contributing nodes all fit the budget individually
(i.e. is not an oversize-flagged chunk) has rendered byte length at most
`max_chunk_size` — for every emitted chunk, not only non-final ones — and
a sibling group whose total size is below `min_chunk_size ≤ max_chunk_size`
is still emitted, as one single under-sized chunk holding the whole group. -/
theorem c1_size_bound (maxSize minSize : Nat) (nodes : List CNode) (k : String)
    (g : List CNode) :
    (g ∈ groupRelatedNodes maxSize nodes → (∀ n ∈ g, nodeSize n ≤ maxSize) →
       (renderGroup g).length ≤ maxSize) ∧
    (nodes ≠ [] → (∀ n ∈ nodes, parentKey n = k) → minSize ≤ maxSize →
       sumSize nodes < minSize →
       groupRelatedNodes maxSize nodes = [sortByStart nodes]) := by
  constructor
  · intro hg hall
    rw [renderGroup_length]
    obtain ⟨gl, hgl, hmem⟩ := List.mem_flatten.mp hg
    obtain ⟨k', _, rfl⟩ := List.mem_map.mp hgl
    exact groupLoop_size maxSize _ [] 0 rfl (Or.inl (by simp [sumSize])) g hmem hall
  · intro hne hkey hminmax hlt
    unfold groupRelatedNodes
    rw [groupKeys_const k nodes hne hkey]
    simp only [List.map_singleton]
    rw [groupFor_self k nodes hkey,
      groupLoop_all maxSize (sortByStart nodes) (sortByStart_ne_nil hne)
        (by rw [sumSize_sortByStart]; omega)]
    simp

/-- Witness for C1: two nodes of 3 and 4 bytes, `max_chunk_size = 1000`,
`min_chunk_size = 10`; the whole group (total 7 < 10) is emitted as one
under-sized chunk, and its rendered length respects the bound. -/
theorem c1_size_bound_witness :
    (renderGroup [w1, w2]).length ≤ 1000 ∧
    groupRelatedNodes 1000 [w1, w2] = [sortByStart [w1, w2]] :=
  ⟨(c1_size_bound 1000 10 [w1, w2] "root" [w1, w2]).1 (by decide) (by decide),
   (c1_size_bound 1000 10 [w1, w2] "root" [w1, w2]).2 (by decide) (by decide)
     (by decide) (by decide)⟩

/-- C4 counterexample: `parent_key = node.parent or "root"` collapses an
absent conditional context and the literal context `"root"` to the same
key, so two sibling nodes with DIFFERENT `conditional_context` values
(`"root"` vs none) land in the same chunk, refuting "the merger never
places two sibling nodes with different conditional_context values into
the same chunk". -/
theorem c4_sentinel_collision_counterexample :
    groupRelatedNodes 1000 [nRoot, nNone] = [[nRoot, nNone]] ∧
    nRoot.parent ≠ nNone.parent := by
  exact ⟨rfl, by decide⟩

/-- C4 amended: two siblings share a chunk only when their conditional
context KEYS agree, where the key collapses an absent or empty context to
the sentinel `"root"`; siblings are processed in ascending start_line
order and the chunks of a group concatenate back to the full ordered
group; in particular Scenario D (50-byte nodes under `FEATURE_A` and
`FEATURE_B`, `max_chunk_size = 1000`) yields two separate chunks, each
tagged with its own conditional context. -/
theorem c4_conditional_context_boundary (maxSize : Nat) (nodes g : List CNode)
    (n₁ n₂ : CNode) (sibs : List CNode) :
    (g ∈ groupRelatedNodes maxSize nodes → n₁ ∈ g → n₂ ∈ g →
       parentKey n₁ = parentKey n₂) ∧
    (groupLoop maxSize sibs [] 0).flatten = sibs ∧
    groupRelatedNodes 1000 [nodeA, nodeB] = [[nodeA], [nodeB]] ∧
    (groupRelatedNodes 1000 [nodeA, nodeB]).map chunkCondContexts =
      [["FEATURE_A"], ["FEATURE_B"]] := by
  refine ⟨?_, by simpa using groupLoop_flatten maxSize sibs [] 0, rfl, rfl⟩
  intro hg h1 h2
  obtain ⟨gl, hgl, hmem⟩ := List.mem_flatten.mp hg
  obtain ⟨k', _, rfl⟩ := List.mem_map.mp hgl
  have key : ∀ n ∈ g, parentKey n = k' := by
    intro n hn
    have hfl : n ∈ (groupLoop maxSize (sortByStart (groupFor nodes k')) [] 0).flatten :=
      List.mem_flatten.mpr ⟨g, hmem, hn⟩
    rw [groupLoop_flatten] at hfl
    have hsorted : n ∈ sortByStart (groupFor nodes k') := by simpa using hfl
    have hfilter := List.mem_filter.mp (mem_sortByStart.mp hsorted)
    simpa using hfilter.2
  rw [key n₁ h1, key n₂ h2]

/-- Witness for C4's amended theorem: two same-context siblings end up in
one chunk and indeed carry equal context keys. -/
theorem c4_conditional_context_boundary_witness : parentKey w1 = parentKey w2 :=
  (c4_conditional_context_boundary 1000 [w1, w2] [w1, w2] w1 w2 []).1
    (by decide) (by decide) (by decide)

theorem sumLineSize_append (a b : List String) :
    sumLineSize (a ++ b) = sumLineSize a + sumLineSize b := by
  induction a with
  | nil => simp [sumLineSize]
  | cons l rest ih =>
      simp only [sumLineSize, List.cons_append, List.append_eq] at *
      omega

theorem joinSep_nl_length (l : List String) (h : l ≠ []) :
    (joinSep "\n" l).length + 1 = sumLineSize l := by
  match l with
  | [a] => simp [joinSep, sumLineSize, lineSize]
  | a :: b :: rest =>
      have ih := joinSep_nl_length (b :: rest) (by simp)
      show (a ++ "\n" ++ joinSep "\n" (b :: rest)).length + 1
        = lineSize a + sumLineSize (b :: rest)
      rw [String.length_append, String.length_append]
      have h1 : ("\n" : String).length = 1 := rfl
      simp only [lineSize]
      omega

theorem joinSep_nl_append (a b : List String) (ha : a ≠ []) (hb : b ≠ []) :
    joinSep "\n" (a ++ b) = joinSep "\n" a ++ "\n" ++ joinSep "\n" b := by
  match a with
  | [x] =>
      match b with
      | y :: ys => rfl
  | x :: x' :: rest =>
      have ih := joinSep_nl_append (x' :: rest) b (by simp) hb
      show x ++ "\n" ++ joinSep "\n" ((x' :: rest) ++ b)
        = (x ++ "\n" ++ joinSep "\n" (x' :: rest)) ++ "\n" ++ joinSep "\n" b
      rw [ih]
      simp [String.append_assoc]

theorem joinSep_nl_pair (X : List String) (a b : String) :
    joinSep "\n" (X ++ [a, b]) = joinSep "\n" (X ++ [a ++ "\n" ++ b]) := by
  induction X with
  | nil => simp [joinSep]
  | cons x rest ih =>
      match rest with
      | [] => simp [joinSep, String.append_assoc]
      | y :: ys =>
          show joinSep "\n" (x :: ((y :: ys) ++ [a, b])) = joinSep "\n" (x :: ((y :: ys) ++ [a ++ "\n" ++ b]))
          have h1 : ∀ (t : List String), (y :: ys) ++ t ≠ [] := by simp
          show x ++ "\n" ++ joinSep "\n" ((y :: ys) ++ [a, b]) = x ++ "\n" ++ joinSep "\n" ((y :: ys) ++ [a ++ "\n" ++ b])
          rw [ih]

theorem splitLoop_codes (maxSize : Nat) (node : CNode) (lines : List String) :
    ∀ chunks cur size, cur ≠ [] →
      joinSep "\n" ((splitLoop maxSize node lines chunks cur size).map CNode.code) =
      joinSep "\n" (chunks.map CNode.code ++ [joinSep "\n" (cur ++ lines)]) := by
  induction lines with
  | nil =>
      intro chunks cur size hcur
      simp only [splitLoop, if_neg hcur, List.map_append, List.map_cons, List.map_nil,
        List.append_nil]
      rfl
  | cons line rest ih =>
      intro chunks cur size hcur
      simp only [splitLoop]
      split
      · rw [ih (chunks ++ [mkPart node cur chunks.isEmpty]) [line] (lineSize line) (by simp)]
        rw [joinSep_nl_append cur (line :: rest) hcur (by simp)]
        simp only [List.map_append, List.map_cons, List.map_nil]
        rw [List.append_assoc]
        show joinSep "\n" (chunks.map CNode.code ++ [joinSep "\n" cur, joinSep "\n" ([line] ++ rest)]) = _
        rw [joinSep_nl_pair]
        rfl
      · rw [ih chunks (cur ++ [line]) (size + lineSize line) (by simp)]
        simp

theorem splitLoop_parts (maxSize : Nat) (node : CNode) (lines : List String) :
    ∀ chunks cur size p, p ∈ splitLoop maxSize node lines chunks cur size →
      p ∈ chunks ∨ ∃ ls isF, ls ≠ [] ∧ p = mkPart node ls isF := by
  induction lines with
  | nil =>
      intro chunks cur size p hp
      by_cases h : cur = []
      · simp only [splitLoop, if_pos h] at hp
        exact Or.inl hp
      · simp only [splitLoop, if_neg h, List.mem_append] at hp
        rcases hp with hp | hp
        · exact Or.inl hp
        · exact Or.inr ⟨cur, chunks.isEmpty, h, by simpa using hp⟩
  | cons line rest ih =>
      intro chunks cur size p hp
      simp only [splitLoop] at hp
      split at hp
      · rename_i hcond
        rcases ih _ _ _ p hp with hmem | hnew
        · rcases List.mem_append.mp hmem with h | h
          · exact Or.inl h
          · exact Or.inr ⟨cur, chunks.isEmpty, hcond.1, by simpa using h⟩
        · exact Or.inr hnew
      · exact ih _ _ _ p hp

theorem splitLoop_size (maxSize : Nat) (node : CNode) (lines : List String) :
    ∀ chunks cur size, size = sumLineSize cur → sumLineSize cur ≤ maxSize →
      (∀ l ∈ lines, lineSize l ≤ maxSize) →
      (∀ p ∈ chunks, p.code.length ≤ maxSize) →
      ∀ p ∈ splitLoop maxSize node lines chunks cur size, p.code.length ≤ maxSize := by
  induction lines with
  | nil =>
      intro chunks cur size hsz hcur _ hchunks p hp
      by_cases h : cur = []
      · simp only [splitLoop, if_pos h] at hp
        exact hchunks p hp
      · simp only [splitLoop, if_neg h, List.mem_append] at hp
        rcases hp with hp | hp
        · exact hchunks p hp
        · have : p = mkPart node cur chunks.isEmpty := by simpa using hp
          subst this
          have := joinSep_nl_length cur h
          simp only [mkPart]
          omega
  | cons line rest ih =>
      intro chunks cur size hsz hcur hlines hchunks p hp
      simp only [splitLoop] at hp
      split at hp
      · rename_i hcond
        refine ih _ [line] (lineSize line) (by simp [sumLineSize]) ?_
          (fun l hl => hlines l (List.mem_cons_of_mem _ hl)) ?_ p hp
        · simp only [sumLineSize]
          have := hlines line (List.mem_cons_self _ _)
          omega
        · intro q hq
          rcases List.mem_append.mp hq with h | h
          · exact hchunks q h
          · have : q = mkPart node cur chunks.isEmpty := by simpa using h
            subst this
            have := joinSep_nl_length cur hcond.1
            simp only [mkPart]
            omega
      · rename_i hcond
        refine ih _ (cur ++ [line]) (size + lineSize line)
          (by rw [sumLineSize_append]; simp [sumLineSize]; omega) ?_
          (fun l hl => hlines l (List.mem_cons_of_mem _ hl)) hchunks p hp
        rcases Decidable.not_and_iff_or_not.mp hcond with hnil | hle
        · have hce : cur = [] := Decidable.not_not.mp hnil
          subst hce
          simp only [List.nil_append, sumLineSize]
          have := hlines line (List.mem_cons_self _ _)
          omega
        · rw [sumLineSize_append]
          simp only [sumLineSize]
          omega

theorem splitLoop_docs (maxSize : Nat) (node : CNode) (lines : List String) :
    ∀ chunks cur size,
      (∀ p, chunks.head? = some p → p.doxygen = node.doxygen ∧ p.comments = node.comments) →
      (∀ p ∈ chunks.drop 1, p.doxygen = none ∧ p.comments = []) →
      (∀ p, (splitLoop maxSize node lines chunks cur size).head? = some p →
         p.doxygen = node.doxygen ∧ p.comments = node.comments) ∧
      (∀ p ∈ (splitLoop maxSize node lines chunks cur size).drop 1,
         p.doxygen = none ∧ p.comments = []) := by
  have step : ∀ (chunks : List CNode) (cur : List String),
      (∀ p, chunks.head? = some p → p.doxygen = node.doxygen ∧ p.comments = node.comments) →
      (∀ p ∈ chunks.drop 1, p.doxygen = none ∧ p.comments = []) →
      (∀ p, (chunks ++ [mkPart node cur chunks.isEmpty]).head? = some p →
         p.doxygen = node.doxygen ∧ p.comments = node.comments) ∧
      (∀ p ∈ (chunks ++ [mkPart node cur chunks.isEmpty]).drop 1,
         p.doxygen = none ∧ p.comments = []) := by
    intro chunks cur hhead htail
    match chunks with
    | [] =>
        refine ⟨?_, ?_⟩
        · intro p hp
          have hpe : mkPart node cur true = p := by simpa using hp
          subst hpe
          simp [mkPart]
        · intro p hp
          simp at hp
    | c :: cs =>
        refine ⟨?_, ?_⟩
        · intro p hp
          exact hhead p (by simpa using hp)
        · intro p hp
          simp only [List.cons_append, List.drop_succ_cons, List.drop_zero] at hp
          rcases List.mem_append.mp hp with h | h
          · exact htail p (by simpa using h)
          · have : p = mkPart node cur (c :: cs).isEmpty := by simpa using h
            subst this
            simp [mkPart, List.isEmpty_cons]
  induction lines with
  | nil =>
      intro chunks cur size hhead htail
      by_cases h : cur = []
      · simp only [splitLoop, if_pos h]
        exact ⟨hhead, htail⟩
      · simp only [splitLoop, if_neg h]
        exact step chunks cur hhead htail
  | cons line rest ih =>
      intro chunks cur size hhead htail
      simp only [splitLoop]
      split
      · obtain ⟨h1, h2⟩ := step chunks cur hhead htail
        exact ih _ _ _ h1 h2
      · exact ih _ _ _ hhead htail

/-- C5 counterexample: splitting `bigNode` produces two distinct parts BOTH
tagged `"function_definition_part"` — the tag carries only the literal
`_part` suffix and no per-part index, so the parts of one node are
indistinguishable by their kind tag, refuting "each part retains the node's
name/kind tag suffixed with a part index". -/
theorem c5_no_part_index_counterexample :
    (splitLargeNode 5 bigNode).map CNode.type
      = ["function_definition_part", "function_definition_part"] ∧
    (splitLargeNode 5 bigNode).map CNode.code = ["aaaa", "bbbb"] := by
  constructor
  · rfl
  · rfl

/-- C5 amended: a node with children is never textually split directly; a
childless node's text is divided along line boundaries by accumulating a
running byte count and cutting before the line that would exceed the
budget, every part is at most `max_chunk_size` when no single line
overflows the budget on its own, only the first part retains the node's
doc_comment and plain comments while later parts carry none, the parts
joined by newlines reconstruct the node's text, and each part carries the
node's name and its kind tag suffixed with the literal `"_part"` (the same
tag for every part — no per-part index). -/
theorem c5_split_large_node (maxSize : Nat) (node : CNode) :
    (node.childCount ≠ 0 → splitLargeNode maxSize node = [node]) ∧
    (node.childCount = 0 →
      ((∀ l ∈ splitLines node.code, lineSize l ≤ maxSize) →
         ∀ p ∈ splitLargeNode maxSize node, p.code.length ≤ maxSize) ∧
      (∀ p, (splitLargeNode maxSize node).head? = some p →
         p.doxygen = node.doxygen ∧ p.comments = node.comments) ∧
      (∀ p ∈ (splitLargeNode maxSize node).drop 1,
         p.doxygen = none ∧ p.comments = []) ∧
      (∀ p ∈ splitLargeNode maxSize node,
         p.type = node.type ++ "_part" ∧ p.name = node.name) ∧
      joinSep "\n" ((splitLargeNode maxSize node).map CNode.code)
        = joinSep "\n" (splitLines node.code)) := by
  constructor
  · intro h
    simp [splitLargeNode, h]
  · intro h0
    have hL : splitLargeNode maxSize node
        = splitLoop maxSize node (splitLines node.code) [] [] 0 := by
      simp [splitLargeNode, h0]
    have hdocs := splitLoop_docs maxSize node (splitLines node.code) [] [] 0
      (by intro p hp; simp at hp) (by intro p hp; simp at hp)
    refine ⟨?_, ?_, ?_, ?_, ?_⟩
    · intro hlines p hp
      rw [hL] at hp
      exact splitLoop_size maxSize node (splitLines node.code) [] [] 0 rfl
        (Nat.zero_le _) hlines (by intro q hq; simp at hq) p hp
    · intro p hp
      rw [hL] at hp
      exact hdocs.1 p hp
    · intro p hp
      rw [hL] at hp
      exact hdocs.2 p hp
    · intro p hp
      rw [hL] at hp
      rcases splitLoop_parts maxSize node (splitLines node.code) [] [] 0 p hp with
        hmem | ⟨ls, isF, _, rfl⟩
      · simp at hmem
      · exact ⟨rfl, rfl⟩
    · rw [hL]
      cases hsp : splitLines node.code with
      | nil => simp [splitLoop]
      | cons x rest =>
          simp only [splitLoop]
          rw [if_neg (fun hc => hc.1 rfl)]
          rw [splitLoop_codes maxSize node rest [] ([] ++ [x]) (0 + lineSize x) (by simp)]
          simp [joinSep]

/-- Witness for C5's amended theorem at `bigNode` / `withKids` with
`max_chunk_size = 5`: the child-bearing variant is returned unsplit, the
first part stays within the budget, and the two parts reconstruct the
node's text. -/
theorem c5_split_large_node_witness :
    splitLargeNode 5 withKids = [withKids] ∧
    (mkPart bigNode ["aaaa"] true).code.length ≤ 5 ∧
    joinSep "\n" ((splitLargeNode 5 bigNode).map CNode.code)
      = joinSep "\n" (splitLines bigNode.code) :=
  ⟨(c5_split_large_node 5 withKids).1 (by decide),
   ((c5_split_large_node 5 bigNode).2 rfl).1 (by decide)
     (mkPart bigNode ["aaaa"] true) (by decide),
   ((c5_split_large_node 5 bigNode).2 rfl).2.2.2.2⟩

/-- C10: every part emitted for an oversized childless node records
`start_line = node.start_line` and `end_line = node.start_line + (number of
lines accumulated in that part)`; consequently the recorded line ranges of
distinct parts of one node all contain the node's start line and overlap
pairwise instead of partitioning the node's span. -/
theorem c10_split_part_line_ranges (maxSize : Nat) (node : CNode)
    (h : node.childCount = 0) :
    ∀ p ∈ splitLargeNode maxSize node,
      p.start_line = node.start_line ∧
      (∃ ls : List String, ls ≠ [] ∧ p.code = joinSep "\n" ls ∧
        p.end_line = node.start_line + ls.length) ∧
      ∀ q ∈ splitLargeNode maxSize node,
        p.start_line ≤ q.end_line ∧ q.start_line ≤ p.end_line := by
  have hL : splitLargeNode maxSize node
      = splitLoop maxSize node (splitLines node.code) [] [] 0 := by
    simp [splitLargeNode, h]
  intro p hp
  rw [hL] at hp
  rcases splitLoop_parts maxSize node (splitLines node.code) [] [] 0 p hp with
    hmem | ⟨ls, isF, hne, rfl⟩
  · simp at hmem
  · refine ⟨rfl, ⟨ls, hne, rfl, rfl⟩, ?_⟩
    intro q hq
    rw [hL] at hq
    rcases splitLoop_parts maxSize node (splitLines node.code) [] [] 0 q hq with
      hmem | ⟨ls₂, isF₂, hne₂, rfl⟩
    · simp at hmem
    · constructor
      · simp [mkPart]
      · simp [mkPart]

/-- Witness for C10 at `bigNode` with `max_chunk_size = 5`: the first part
starts at the node's start line and overlaps the second part's range. -/
theorem c10_split_part_line_ranges_witness :
    (mkPart bigNode ["aaaa"] true).start_line = bigNode.start_line ∧
    (mkPart bigNode ["aaaa"] true).start_line ≤ (mkPart bigNode ["bbbb"] false).end_line :=
  ⟨(c10_split_part_line_ranges 5 bigNode rfl (mkPart bigNode ["aaaa"] true) (by decide)).1,
   ((c10_split_part_line_ranges 5 bigNode rfl (mkPart bigNode ["aaaa"] true)
      (by decide)).2.2 (mkPart bigNode ["bbbb"] false) (by decide)).1⟩

set_option maxRecDepth 8000 in
/-- C6: when `overlap_units > 0` and a chunk is emitted, the just-emitted
chunk carries the old node buffer and text, and the next buffer is seeded
with the last `overlap_units` siblings of that chunk, RE-RENDERED from
`_format_node_content` (not taken from the emitted text); with
`overlap_units = 1`, four 100-byte nodes and `max_chunk_size = 250`, the
chunks are [n1,n2], [n2,n3], [n3,n4] with n2 and n3 duplicated. -/
theorem c6_overlap_seeding (maxSize overlapUnits : Nat)
    (chunks : List Chunk) (buffer : String) (nodeBuf : List CNode) (node : CNode) :
    (buffer ≠ "" → buffer.length + (formatNodeContent node).length > maxSize →
      overlapUnits ≠ 0 → nodeBuf ≠ [] →
      chunkStep maxSize overlapUnits (chunks, buffer, nodeBuf) node =
        (chunks ++ [⟨nodeBuf, buffer⟩],
         (if joinSep "\n\n" ((nodeBuf.drop (nodeBuf.length - overlapUnits)).map
              formatNodeContent) ≠ ""
          then joinSep "\n\n" ((nodeBuf.drop (nodeBuf.length - overlapUnits)).map
              formatNodeContent) ++ "\n\n" ++ formatNodeContent node
          else formatNodeContent node),
         nodeBuf.drop (nodeBuf.length - overlapUnits) ++ [node])) ∧
    (chunkify 250 1 false [n1, n2, n3, n4]).map Chunk.nodes
      = [[n1, n2], [n2, n3], [n3, n4]] := by
  constructor
  · intro h1 h2 h3 h4
    simp only [chunkStep]
    rw [if_pos (show buffer ≠ "" ∧ buffer.length + (formatNodeContent node).length > maxSize
      from ⟨h1, h2⟩)]
    rw [if_pos (show overlapUnits ≠ 0 ∧ nodeBuf ≠ [] from ⟨h3, h4⟩)]
  · rfl

set_option maxRecDepth 8000 in
/-- Witness for C6's seeding clause: a 202-byte buffer holding [n1, n2]
overflows on n3; the emitted chunk is ([n1, n2], buffer), and the new
state keeps [n2] re-rendered plus n3. -/
theorem c6_overlap_seeding_witness :
    chunkStep 250 1 (([] : List Chunk),
        joinSep "\n\n" [formatNodeContent n1, formatNodeContent n2], [n1, n2]) n3
      = ([⟨[n1, n2], joinSep "\n\n" [formatNodeContent n1, formatNodeContent n2]⟩],
         (if joinSep "\n\n" (([n1, n2].drop ([n1, n2].length - 1)).map
              formatNodeContent) ≠ ""
          then joinSep "\n\n" (([n1, n2].drop ([n1, n2].length - 1)).map
              formatNodeContent) ++ "\n\n" ++ formatNodeContent n3
          else formatNodeContent n3),
         [n1, n2].drop ([n1, n2].length - 1) ++ [n3]) :=
  (c6_overlap_seeding 250 1 []
      (joinSep "\n\n" [formatNodeContent n1, formatNodeContent n2]) [n1, n2] n3).1
    (by decide) (by decide) (by decide) (by decide)

/-- C9: the pipeline is a pure function of the candidate list and the
configuration — running it twice on identical inputs yields byte-identical
chunk lists, sibling groupings and conditional-context metadata — and a
node's context path, built by walking parent references to the root and
joining `kind[:name]` segments outer-to-inner, is the same on every
computation over the same tree (e.g. `struct:Outer/struct:Inner`). -/
theorem c9_pipeline_deterministic (maxSize overlapUnits : Nat) (oneSymbol : Bool)
    (nodes₁ nodes₂ : List CNode) (t₁ t₂ : PNode)
    (hn : nodes₁ = nodes₂) (ht : t₁ = t₂) :
    chunkify maxSize overlapUnits oneSymbol nodes₁
      = chunkify maxSize overlapUnits oneSymbol nodes₂ ∧
    groupRelatedNodes maxSize nodes₁ = groupRelatedNodes maxSize nodes₂ ∧
    (groupRelatedNodes maxSize nodes₁).map chunkCondContexts
      = (groupRelatedNodes maxSize nodes₂).map chunkCondContexts ∧
    getFullContext t₁ = getFullContext t₂ ∧
    getFullContext demoTree = "struct:Outer/struct:Inner" := by
  subst hn
  subst ht
  exact ⟨rfl, rfl, rfl, rfl, rfl⟩

/-- Witness for C9: two identical runs at a concrete input agree, and the
Scenario B context path comes out as specified. -/
theorem c9_pipeline_deterministic_witness :
    chunkify 250 1 false [n1, n2] = chunkify 250 1 false [n1, n2] ∧
    groupRelatedNodes 250 [n1, n2] = groupRelatedNodes 250 [n1, n2] ∧
    (groupRelatedNodes 250 [n1, n2]).map chunkCondContexts
      = (groupRelatedNodes 250 [n1, n2]).map chunkCondContexts ∧
    getFullContext demoTree = getFullContext demoTree ∧
    getFullContext demoTree = "struct:Outer/struct:Inner" :=
  c9_pipeline_deterministic 250 1 false [n1, n2] [n1, n2] demoTree demoTree rfl rfl

/-- C2 counterexample: on `ex2` the builder attaches node 2 (span 3-6) as
a child of BOTH node 0 (span 1-10) and node 1 (span 2-9) — when a closer
parent is found, `parent.add_child(node)` is called again without
detaching the node from the previous parent, so a candidate appears more
than once in the forest; moreover nodes 2 and 3 (spans 3-6 and 5-8) are
stored as siblings under node 1 although their spans overlap.  This
refutes the "every candidate appears exactly once" and the "siblings are
pairwise non-overlapping" conjuncts of the claim. -/
theorem c2_forest_counterexample :
    (buildHierarchy ex2).2.children 0 = [1, 2, 3] ∧
    (buildHierarchy ex2).2.children 1 = [2, 3] ∧
    (buildHierarchy ex2).2.roots = [0] ∧
    (nodeAt (buildHierarchy ex2).1 3).start_line
      ≤ (nodeAt (buildHierarchy ex2).1 2).end_line ∧
    (nodeAt (buildHierarchy ex2).1 2).start_line
      ≤ (nodeAt (buildHierarchy ex2).1 3).end_line := by
  refine ⟨?_, ?_, ?_, ?_, ?_⟩ <;> decide

/-- C3 counterexample: on `ex3` node 1's span (2-3) is strictly contained
in node 0's span (1-10), yet node 1 becomes a ROOT: the containment test
additionally demands a strictly lower `NODE_HIERARCHY` rank for the
parent, and both nodes have rank 5.  This refutes "a candidate contained
in no other candidate's span becomes a new root" (equivalently, that
span-containment alone decides attachment). -/
theorem c3_contained_same_rank_root_counterexample :
    (buildHierarchy ex3).2.roots = [0, 1] ∧
    (buildHierarchy ex3).2.children 0 = [] ∧
    (nodeAt (buildHierarchy ex3).1 0).start_line
      < (nodeAt (buildHierarchy ex3).1 1).start_line ∧
    (nodeAt (buildHierarchy ex3).1 1).end_line
      ≤ (nodeAt (buildHierarchy ex3).1 0).end_line := by
  refine ⟨?_, ?_, ?_, ?_⟩ <;> decide

theorem addChild_children_mem {st : HState} {p c i j : Nat}
    (hj : j ∈ (addChild st p c).children i) :
    j ∈ st.children i ∨ (i = p ∧ j = c) := by
  simp only [addChild] at hj
  by_cases h : i = p
  · subst h
    rw [if_pos rfl] at hj
    rcases List.mem_append.mp hj with h1 | h1
    · exact Or.inl h1
    · exact Or.inr ⟨rfl, by simpa using h1⟩
  · rw [if_neg h] at hj
    exact Or.inl hj

theorem innerLoop_roots (ns : List BNode) (j : Nat) (is : List Nat) :
    ∀ st found, ((innerLoop ns j is st found).1).roots = st.roots := by
  induction is with
  | nil => intro st found; rfl
  | cons i is ih =>
      intro st found
      simp only [innerLoop]
      split
      · exact ih st found
      · split
        · split
          · exact ih _ true
          · exact ih st found
        · exact ih st found

theorem innerLoop_children_guard (ns : List BNode) (j : Nat) (is : List Nat) :
    ∀ st found,
      (∀ i' j', j' ∈ st.children i' →
        spanGuard (nodeAt ns i') (nodeAt ns j') = true) →
      ∀ i' j', j' ∈ ((innerLoop ns j is st found).1).children i' →
        spanGuard (nodeAt ns i') (nodeAt ns j') = true := by
  induction is with
  | nil => intro st found h; exact h
  | cons i is ih =>
      intro st found h
      simp only [innerLoop]
      split
      · exact ih st found h
      · split
        · rename_i hguard
          split
          · refine ih _ true ?_
            intro a b hb
            rcases addChild_children_mem hb with h1 | ⟨rfl, rfl⟩
            · exact h a b h1
            · exact hguard
          · exact ih st found h
        · exact ih st found h

theorem innerLoop_children_sub (ns : List BNode) (j : Nat) (is : List Nat) :
    ∀ st found i' x, x ∈ ((innerLoop ns j is st found).1).children i' →
      x ∈ st.children i' ∨ x = j := by
  induction is with
  | nil => intro st found i' x hx; exact Or.inl hx
  | cons i is ih =>
      intro st found i' x hx
      simp only [innerLoop] at hx
      split at hx
      · exact ih st found i' x hx
      · split at hx
        · split at hx
          · rcases ih _ true i' x hx with h1 | h1
            · rcases addChild_children_mem h1 with h2 | ⟨_, rfl⟩
              · exact Or.inl h2
              · exact Or.inr rfl
            · exact Or.inr h1
          · exact ih st found i' x hx
        · exact ih st found i' x hx

theorem innerLoop_children_order (ns : List BNode) (j : Nat) (is : List Nat) :
    ∀ st found, is.Nodup →
      (∀ i, (st.children i).Pairwise (· < ·)) →
      (∀ i x, x ∈ st.children i → x ≤ j) →
      (∀ i, i ∈ is → j ∉ st.children i) →
      (∀ i, (((innerLoop ns j is st found).1).children i).Pairwise (· < ·)) ∧
      (∀ i x, x ∈ ((innerLoop ns j is st found).1).children i → x ≤ j) := by
  induction is with
  | nil => intro st found _ h1 h2 _; exact ⟨h1, h2⟩
  | cons i is ih =>
      intro st found hnd h1 h2 h3
      have hnotmem : i ∉ is := (List.nodup_cons.mp hnd).1
      have hnd' : is.Nodup := (List.nodup_cons.mp hnd).2
      have h3' : ∀ i', i' ∈ is → j ∉ st.children i' :=
        fun i' hi' => h3 i' (List.mem_cons_of_mem _ hi')
      simp only [innerLoop]
      split
      · exact ih st found hnd' h1 h2 h3'
      · split
        · split
          · refine ih _ true hnd' ?_ ?_ ?_
            · intro a
              by_cases hap : a = i
              · have hch : (addChild st i j).children a = st.children i ++ [j] := by
                  simp [addChild, hap]
                rw [hch, List.pairwise_append]
                refine ⟨h1 i, List.pairwise_singleton _ _, ?_⟩
                intro x hx y hy
                have hyj : y = j := by simpa using hy
                have hxle : x ≤ j := h2 i x hx
                have hxne : x ≠ j :=
                  fun hEq => (h3 i (List.mem_cons_self _ _)) (hEq ▸ hx)
                omega
              · have hch : (addChild st i j).children a = st.children a := by
                  simp [addChild, hap]
                rw [hch]
                exact h1 a
            · intro a x hx
              rcases addChild_children_mem hx with hx1 | hx1
              · exact h2 a x hx1
              · exact Nat.le_of_eq hx1.2
            · intro a ha hmem
              rcases addChild_children_mem hmem with hm | hm
              · exact h3' a ha hm
              · exact hnotmem (hm.1 ▸ ha)
          · exact ih st found hnd' h1 h2 h3'
        · exact ih st found hnd' h1 h2 h3'

theorem innerLoop_found (ns : List BNode) (j : Nat) (is : List Nat) :
    ∀ st found,
      (innerLoop ns j is st found).2
        = (found || is.any fun i =>
            decide (i ≠ j) && spanGuard (nodeAt ns i) (nodeAt ns j)) := by
  induction is with
  | nil => intro st found; simp [innerLoop]
  | cons i is ih =>
      intro st found
      simp only [innerLoop, List.any_cons]
      by_cases hij : i = j
      · rw [if_pos hij]
        rw [ih st found]
        subst hij
        simp
      · rw [if_neg hij]
        by_cases hg : spanGuard (nodeAt ns i) (nodeAt ns j) = true
        · rw [if_pos hg]
          by_cases hadd : (!found || refines ns st j i) = true
          · rw [if_pos hadd]
            rw [ih _ true]
            simp [hij, hg]
          · rw [if_neg hadd]
            rw [ih st found]
            have hfound : found = true := by
              cases found with
              | false => simp at hadd
              | true => rfl
            simp [hfound]
        · rw [if_neg hg]
          rw [ih st found]
          have hgf : spanGuard (nodeAt ns i) (nodeAt ns j) = false := by
            simpa using hg
          simp [hgf]

theorem outerLoop_roots_mem (ns : List BNode) : ∀ (js : List Nat) (st : HState) (x : Nat),
    x ∈ (outerLoop ns js st).roots ↔
      x ∈ st.roots ∨ ∃ j ∈ js, x = j ∧
        ((List.range ns.length).any fun i =>
          decide (i ≠ j) && spanGuard (nodeAt ns i) (nodeAt ns j)) = false := by
  intro js
  induction js with
  | nil => intro st x; simp [outerLoop]
  | cons j js ih =>
      intro st x
      simp only [outerLoop]
      rw [ih]
      have hr2 : (innerLoop ns j (List.range ns.length) st false).2
          = (List.range ns.length).any fun i =>
              decide (i ≠ j) && spanGuard (nodeAt ns i) (nodeAt ns j) := by
        rw [innerLoop_found]
        simp
      by_cases hf : (innerLoop ns j (List.range ns.length) st false).2 = true
      · rw [if_pos hf]
        rw [innerLoop_roots]
        have hany : ((List.range ns.length).any fun i =>
            decide (i ≠ j) && spanGuard (nodeAt ns i) (nodeAt ns j)) = true := by
          rw [← hr2]; exact hf
        constructor
        · rintro (h | ⟨j', hj', hx, hj'any⟩)
          · exact Or.inl h
          · exact Or.inr ⟨j', List.mem_cons_of_mem _ hj', hx, hj'any⟩
        · rintro (h | ⟨j', hj', hx, hj'any⟩)
          · exact Or.inl h
          · rcases List.mem_cons.mp hj' with rfl | hj'
            · rw [hany] at hj'any
              exact absurd hj'any (by simp)
            · exact Or.inr ⟨j', hj', hx, hj'any⟩
      · rw [if_neg hf]
        have hany : ((List.range ns.length).any fun i =>
            decide (i ≠ j) && spanGuard (nodeAt ns i) (nodeAt ns j)) = false := by
          rw [← hr2]
          exact Bool.not_eq_true _ ▸ (by simpa using hf)
        have hroots : ({ (innerLoop ns j (List.range ns.length) st false).1 with
            roots := (innerLoop ns j (List.range ns.length) st false).1.roots ++ [j] }
              : HState).roots = st.roots ++ [j] := by
          simp only [innerLoop_roots]
        rw [hroots]
        constructor
        · rintro (h | ⟨j', hj', hx, hj'any⟩)
          · rcases List.mem_append.mp h with h1 | h1
            · exact Or.inl h1
            · have hxj : x = j := by simpa using h1
              exact Or.inr ⟨j, List.mem_cons_self _ _, hxj, hany⟩
          · exact Or.inr ⟨j', List.mem_cons_of_mem _ hj', hx, hj'any⟩
        · rintro (h | ⟨j', hj', hx, hj'any⟩)
          · exact Or.inl (List.mem_append.mpr (Or.inl h))
          · rcases List.mem_cons.mp hj' with rfl | hj'
            · exact Or.inl (List.mem_append.mpr (Or.inr (by simp [hx])))
            · exact Or.inr ⟨j', hj', hx, hj'any⟩

theorem rootsUpd_children (r : HState × Bool) (j : Nat) :
    (if r.2 then r.1 else { r.1 with roots := r.1.roots ++ [j] }).children
      = r.1.children := by
  split <;> rfl

theorem outerLoop_children_guard (ns : List BNode) :
    ∀ (js : List Nat) (st : HState),
      (∀ i' j', j' ∈ st.children i' →
        spanGuard (nodeAt ns i') (nodeAt ns j') = true) →
      ∀ i' j', j' ∈ (outerLoop ns js st).children i' →
        spanGuard (nodeAt ns i') (nodeAt ns j') = true := by
  intro js
  induction js with
  | nil => intro st h; exact h
  | cons j js ih =>
      intro st h
      simp only [outerLoop]
      refine ih _ ?_
      intro i' j' hj
      rw [rootsUpd_children] at hj
      exact innerLoop_children_guard ns j (List.range ns.length) st false h i' j' hj

theorem outerLoop_children_sub (ns : List BNode) :
    ∀ (js : List Nat) (st : HState) (i x : Nat),
      x ∈ (outerLoop ns js st).children i → x ∈ st.children i ∨ x ∈ js := by
  intro js
  induction js with
  | nil => intro st i x hx; exact Or.inl hx
  | cons j js ih =>
      intro st i x hx
      simp only [outerLoop] at hx
      rcases ih _ i x hx with h1 | h1
      · rw [rootsUpd_children] at h1
        rcases innerLoop_children_sub ns j (List.range ns.length) st false i x h1 with
          h2 | h2
        · exact Or.inl h2
        · exact Or.inr (h2 ▸ List.mem_cons_self _ _)
      · exact Or.inr (List.mem_cons_of_mem _ h1)

theorem outerLoop_children_order (ns : List BNode) :
    ∀ (js : List Nat) (st : HState),
      js.Pairwise (· < ·) →
      (∀ i, (st.children i).Pairwise (· < ·)) →
      (∀ i x j', x ∈ st.children i → j' ∈ js → x < j') →
      ∀ i, ((outerLoop ns js st).children i).Pairwise (· < ·) := by
  intro js
  induction js with
  | nil => intro st _ h1 _ i; exact h1 i
  | cons j js ih =>
      intro st hp h1 h2 i
      simp only [outerLoop]
      have hlt : ∀ a x, x ∈ st.children a → x < j :=
        fun a x hx => h2 a x j hx (List.mem_cons_self _ _)
      obtain ⟨ho1, ho2⟩ := innerLoop_children_order ns j (List.range ns.length) st false
        (List.nodup_range _) h1 (fun a x hx => Nat.le_of_lt (hlt a x hx))
        (fun a _ hmem => Nat.lt_irrefl j (hlt a j hmem))
      refine ih _ ((List.pairwise_cons.mp hp).2) ?_ ?_ i
      · intro a
        rw [rootsUpd_children]
        exact ho1 a
      · intro a x j' hx hj'
        rw [rootsUpd_children] at hx
        have hxj : x ≤ j := ho2 a x hx
        have hjj' : j < j' := (List.pairwise_cons.mp hp).1 j' hj'
        omega

theorem bhKeyLe_total (a b : BNode) (h : ¬ bhKeyLe a b) : bhKeyLe b a := by
  unfold bhKeyLe at *
  omega

theorem bhKeyLe_trans {a b c : BNode} (h1 : bhKeyLe a b) (h2 : bhKeyLe b c) :
    bhKeyLe a c := by
  unfold bhKeyLe at *
  omega

theorem mem_bhInsert {x n : BNode} {l : List BNode} :
    x ∈ bhInsert n l ↔ x = n ∨ x ∈ l := by
  induction l with
  | nil => simp [bhInsert]
  | cons m ms ih =>
      simp only [bhInsert]
      split
      · simp
      · simp only [List.mem_cons, ih]
        tauto

theorem pairwise_bhInsert (n : BNode) (l : List BNode) (h : l.Pairwise bhKeyLe) :
    (bhInsert n l).Pairwise bhKeyLe := by
  induction l with
  | nil => simp [bhInsert]
  | cons m ms ih =>
      simp only [bhInsert]
      split
      · rename_i hle
        refine List.pairwise_cons.mpr ⟨?_, h⟩
        intro b hb
        rcases List.mem_cons.mp hb with rfl | hb
        · exact hle
        · exact bhKeyLe_trans hle ((List.pairwise_cons.mp h).1 b hb)
      · rename_i hnle
        refine List.pairwise_cons.mpr ⟨?_, ih (List.pairwise_cons.mp h).2⟩
        intro b hb
        rcases mem_bhInsert.mp hb with rfl | hb
        · exact bhKeyLe_total _ _ hnle
        · exact (List.pairwise_cons.mp h).1 b hb

theorem pairwise_bhSort (l : List BNode) : (bhSort l).Pairwise bhKeyLe := by
  induction l with
  | nil => simp [bhSort]
  | cons n rest ih =>
      show (bhInsert n (bhSort rest)).Pairwise bhKeyLe
      exact pairwise_bhInsert n _ ih

theorem nodeAt_eq_get {l : List BNode} {a : Nat} (h : a < l.length) :
    nodeAt l a = l.get ⟨a, h⟩ := by
  simp [nodeAt, List.getD_eq_getElem?_getD, List.getElem?_eq_getElem h,
    List.get_eq_getElem]

theorem bhSort_start_mono (l : List BNode) {a b : Nat}
    (ha : a < (bhSort l).length) (hb : b < (bhSort l).length) (hab : a < b) :
    (nodeAt (bhSort l) a).start_line ≤ (nodeAt (bhSort l) b).start_line := by
  have hp := pairwise_bhSort l
  have hk := List.pairwise_iff_get.mp hp ⟨a, ha⟩ ⟨b, hb⟩ hab
  rw [nodeAt_eq_get ha, nodeAt_eq_get hb]
  unfold bhKeyLe at hk
  omega

/-- C2 amended: in the forest produced by `_build_hierarchy`, for every
parent/child pair the child's span is contained in the parent's
(`parent.start_line < child.start_line` and
`child.end_line ≤ parent.end_line`), and every children list is stored in
non-decreasing `start_line` order; however a candidate contained in
several ranked containers is attached to each of them (it can appear more
than once in the forest), and siblings' spans may overlap. -/
theorem c2_containment_and_children_order (nodes : List BNode) :
    (∀ i j, j ∈ (buildHierarchy nodes).2.children i →
      (nodeAt (buildHierarchy nodes).1 i).start_line
          < (nodeAt (buildHierarchy nodes).1 j).start_line ∧
      (nodeAt (buildHierarchy nodes).1 j).end_line
          ≤ (nodeAt (buildHierarchy nodes).1 i).end_line) ∧
    (∀ i, ((buildHierarchy nodes).2.children i).Pairwise
      (fun a b => (nodeAt (buildHierarchy nodes).1 a).start_line
          ≤ (nodeAt (buildHierarchy nodes).1 b).start_line)) := by
  have hb1 : (buildHierarchy nodes).1 = bhSort nodes := rfl
  have hb2 : (buildHierarchy nodes).2
      = outerLoop (bhSort nodes) (List.range (bhSort nodes).length) initState := rfl
  constructor
  · intro i j hj
    rw [hb2] at hj
    have hg := outerLoop_children_guard (bhSort nodes) _ initState
      (fun a b hb => absurd hb (by simp [initState])) i j hj
    rw [hb1]
    simp only [spanGuard, decide_eq_true_eq] at hg
    exact ⟨hg.1, hg.2.1⟩
  · intro i
    rw [hb1, hb2]
    have hpl := outerLoop_children_order (bhSort nodes)
      (List.range (bhSort nodes).length) initState
      (List.pairwise_lt_range _)
      (fun a => by simp [initState])
      (fun a x j' hx _ => absurd hx (by simp [initState])) i
    have hsub : ∀ x ∈ (outerLoop (bhSort nodes)
        (List.range (bhSort nodes).length) initState).children i,
        x < (bhSort nodes).length := by
      intro x hx
      rcases outerLoop_children_sub (bhSort nodes) _ initState i x hx with h | h
      · simp [initState] at h
      · exact List.mem_range.mp h
    refine hpl.imp_of_mem ?_
    intro a b ha hb hab
    exact bhSort_start_mono nodes (hsub a ha) (hsub b hb) hab

/-- Witness for C2's amended theorem at `ex2`: node 2 is a child of node 0
and the containment inequalities hold there. -/
theorem c2_containment_and_children_order_witness :
    (nodeAt (buildHierarchy ex2).1 0).start_line
        < (nodeAt (buildHierarchy ex2).1 2).start_line ∧
    (nodeAt (buildHierarchy ex2).1 2).end_line
        ≤ (nodeAt (buildHierarchy ex2).1 0).end_line :=
  (c2_containment_and_children_order ex2).1 0 2 (by decide)

/-- C3 amended: `_build_hierarchy` attaches a candidate as a child of a
candidate exactly under the guard "strictly earlier start line, end line
no earlier, strictly lower (more container-like) rank"; a candidate
becomes a root precisely when NO other position in the sorted list passes
that guard — span containment alone does not suffice, and a candidate is
attached to every successively closer container rather than only the
single innermost one. -/
theorem c3_parent_rule (nodes : List BNode) (j : Nat) :
    (j ∈ (buildHierarchy nodes).2.roots ↔
      j ∈ List.range (buildHierarchy nodes).1.length ∧
      ((List.range (buildHierarchy nodes).1.length).any fun i =>
        decide (i ≠ j) && spanGuard (nodeAt (buildHierarchy nodes).1 i)
          (nodeAt (buildHierarchy nodes).1 j)) = false) ∧
    (∀ i, j ∈ (buildHierarchy nodes).2.children i →
      spanGuard (nodeAt (buildHierarchy nodes).1 i)
        (nodeAt (buildHierarchy nodes).1 j) = true) := by
  have hb1 : (buildHierarchy nodes).1 = bhSort nodes := rfl
  have hb2 : (buildHierarchy nodes).2
      = outerLoop (bhSort nodes) (List.range (bhSort nodes).length) initState := rfl
  constructor
  · rw [hb1, hb2, outerLoop_roots_mem]
    constructor
    · rintro (h | ⟨j', hj', hx, hany⟩)
      · exact absurd h (by simp [initState])
      · subst hx
        exact ⟨hj', hany⟩
    · rintro ⟨hj, hany⟩
      exact Or.inr ⟨j, hj, rfl, hany⟩
  · intro i hj
    rw [hb2] at hj
    rw [hb1]
    exact outerLoop_children_guard (bhSort nodes) _ initState
      (fun a b hb => absurd hb (by simp [initState])) i j hj

/-- Witness for C3's amended theorem at `ex3`: node 1 is a root because no
position passes the guard against it (node 0 contains it but has equal
rank). -/
theorem c3_parent_rule_witness : 1 ∈ (buildHierarchy ex3).2.roots :=
  ((c3_parent_rule ex3 1).1).mpr (by decide)

end AST
